import Mathlib

/-!
Verification model of `lru_cache.py`: a size-bounded, disk-backed LRU cache.

The embedding is shallow. Keys and values are modelled as `Nat` (the Python
code accepts any hashable key and any picklable value; nothing in the
algorithms depends on their structure beyond equality and serializability).
The `OrderedDict` backing store is a `List (Nat × Nat)` ordered oldest-first
(head = least recently used, tail = most recently used), mirroring
`OrderedDict` iteration order.

`pickle` is the Python standard library, outside this repository; it is
modelled as a concrete deterministic, injective byte encoding `pickleDump`
with decoder `pickleLoad` satisfying the round-trip law, including a fixed
nonzero overhead for the empty store (real pickle has the same property).
Every place the Python code serializes (`trim`, `bytesize`, `save`) calls
this one function, exactly as every Python call site uses
`pickle.Pickler(..., protocol=pickle.HIGHEST_PROTOCOL)`.

Python exceptions are modelled explicitly: `trim` and `save` return `Option`
(`none` = an uncaught exception escaped), and `__delitem__` returns a
success flag alongside the post-state, because Python leaves the mutated
object state visible after an exception.
-/

namespace LRU

/-- Little-endian base-256 digits of `n`, with fuel so the definition is
structurally recursive and reduces inside `decide`. -/
def toBytesFuel : Nat → Nat → List Nat
  | 0, _ => []
  | fuel + 1, n => if n = 0 then [] else n % 256 :: toBytesFuel fuel (n / 256)

/-- Little-endian base-256 digits of `n` (empty for 0). -/
def toBytes (n : Nat) : List Nat :=
  toBytesFuel n n

/-- Value of a little-endian base-256 digit list. -/
def fromBytes : List Nat → Nat
  | [] => 0
  | b :: bs => b + 256 * fromBytes bs

/-- Length-prefixed encoding of one natural number. -/
def natEnc (n : Nat) : List Nat :=
  (toBytes n).length :: toBytes n

/-- Decode one length-prefixed natural number, returning it and the rest. -/
def decodeNat (bs : List Nat) : Option (Nat × List Nat) :=
  match bs with
  | [] => none
  | len :: rest =>
    if len ≤ rest.length then some (fromBytes (rest.take len), rest.drop len)
    else none

/-- Encoding of one key/value record. -/
def encPair (kv : Nat × Nat) : List Nat :=
  natEnc kv.1 ++ natEnc kv.2

/-- Model of `pickle.dumps(data, protocol=pickle.HIGHEST_PROTOCOL)` on the
ordered store: a protocol header, the entry count, the length-prefixed
key/value records in order, and a stop byte. The empty store costs 4 bytes
of pure overhead, mirroring pickle's nonzero empty-`OrderedDict` footprint. -/
def pickleDump (d : List (Nat × Nat)) : List Nat :=
  128 :: 5 :: (natEnc d.length ++ (d.flatMap encPair ++ [46]))

/-- Decode `n` key/value records. -/
def decodePairs : Nat → List Nat → Option (List (Nat × Nat) × List Nat)
  | 0, bs => some ([], bs)
  | n + 1, bs => do
    let (k, bs1) ← decodeNat bs
    let (v, bs2) ← decodeNat bs1
    let (rest, bs3) ← decodePairs n bs2
    pure ((k, v) :: rest, bs3)

/-- Model of `pickle.load`: the inverse of `pickleDump`, failing (`none`,
i.e. raising) on anything it did not write. -/
def pickleLoad (bs : List Nat) : Option (List (Nat × Nat)) :=
  match bs with
  | 128 :: 5 :: rest => do
    let (n, r1) ← decodeNat rest
    let (d, r2) ← decodePairs n r1
    match r2 with
    | [46] => some d
    | _ => none
  | _ => none

/-! ### OrderedDict primitives

`odGet`, `odSet`, `odDel`, `moveToEnd` model `dict.get`, `d[k] = v`,
`del d[k]` and `OrderedDict.move_to_end(k, last=True)` on the oldest-first
entry list. `OrderedDict` keeps keys unique, so "first match" semantics
below coincide with dict semantics on every state the code constructs. -/

/-- `self._data.get(key)`: value of the first entry with key `k`. -/
def odGet (d : List (Nat × Nat)) (k : Nat) : Option Nat :=
  match d with
  | [] => none
  | (k', v) :: rest => if k' = k then some v else odGet rest k

/-- `self._data[key] = value`: replace in place if present, else append. -/
def odSet (d : List (Nat × Nat)) (k v : Nat) : List (Nat × Nat) :=
  match d with
  | [] => [(k, v)]
  | (k', v') :: rest => if k' = k then (k, v) :: rest else (k', v') :: odSet rest k v

/-- `del self._data[key]`: remove the entry with key `k` (the first match). -/
def odDel (d : List (Nat × Nat)) (k : Nat) : List (Nat × Nat) :=
  match d with
  | [] => []
  | (k', v') :: rest => if k' = k then rest else (k', v') :: odDel rest k

/-- `self._data.move_to_end(key, last=True)`: relink the entry for `k` to the
tail, keeping its value. (Python raises on an absent key; every call site in
the code has already established presence, so the absent branch is inert.) -/
def moveToEnd (d : List (Nat × Nat)) (k : Nat) : List (Nat × Nat) :=
  match odGet d k with
  | none => d
  | some v => odDel d k ++ [(k, v)]

/-- The key sequence of the store, in recency order (oldest first). -/
def keysOf (d : List (Nat × Nat)) : List Nat :=
  d.map Prod.fst

/-! ### The cache -/

/-- `LRUCache`: entry list oldest-first, the two configured caps
(`_max_items` is stored but never consulted by any operation, as in the
source), and the `_did_change` dirty flag. -/
structure LRUCache where
  data : List (Nat × Nat)
  max_items : Nat
  max_bytesize : Nat
  did_change : Bool
deriving DecidableEq, Repr

/-- `LRUCache.__getitem__`: on a hit, mark dirty, promote the key to
most-recent and return its value; on a miss return `None` (modelled `none`)
with no state change. -/
def LRUCache.getitem (c : LRUCache) (k : Nat) : Option Nat × LRUCache :=
  match odGet c.data k with
  | none => (none, c)
  | some v => (some v, { c with did_change := true, data := moveToEnd c.data k })

/-- `LRUCache.get(key, default)`: like `__getitem__` but a miss returns the
caller's default. -/
def LRUCache.get (c : LRUCache) (k : Nat) (default : Option Nat) :
    Option Nat × LRUCache :=
  match odGet c.data k with
  | none => (default, c)
  | some v => (some v, { c with did_change := true, data := moveToEnd c.data k })

/-- `LRUCache.__setitem__`: mark dirty, insert or replace, then
`move_to_end`. -/
def LRUCache.setitem (c : LRUCache) (k v : Nat) : LRUCache :=
  { c with did_change := true, data := moveToEnd (odSet c.data k v) k }

/-- `LRUCache.__delitem__`: the code sets `_did_change = True` first and only
then executes `del self._data[key]`, which raises `KeyError` when the key is
absent. The Bool is the success flag; the second component is the object
state observable afterwards, mutation included on the failing path. -/
def LRUCache.delitem (c : LRUCache) (k : Nat) : Bool × LRUCache :=
  let c' : LRUCache := { c with did_change := true }
  match odGet c.data k with
  | none => (false, c')
  | some _ => (true, { c' with data := odDel c.data k })

/-- `LRUCache.bytesize`: pickle the whole store and report the byte count. -/
def LRUCache.bytesize (c : LRUCache) : Nat :=
  (pickleDump c.data).length

/-- The `while True` loop of `LRUCache.trim`: serialize the store; stop when
the footprint is strictly below `_max_bytesize`; otherwise pop the next
snapshot key, mark dirty, delete it and count the eviction. `none` models
the `IndexError` that `sorted_keys.pop(0)` raises on an exhausted snapshot. -/
def trimLoop (maxB : Nat) : List Nat → List (Nat × Nat) → Nat →
    Option (Nat × List (Nat × Nat))
  | snap, d, count =>
    if (pickleDump d).length < maxB then some (count, d)
    else
      match snap with
      | [] => none
      | k :: rest => trimLoop maxB rest (odDel d k) (count + 1)

/-- `LRUCache.trim`: snapshot the key order, run the eviction loop, and
return the eviction count with the post-state (`none` = `IndexError`
escaped). `_did_change` is set exactly when at least one entry was evicted. -/
def LRUCache.trim (c : LRUCache) : Option (Nat × LRUCache) :=
  match trimLoop c.max_bytesize (keysOf c.data) c.data 0 with
  | none => none
  | some (n, d) =>
    some (n, { c with data := d, did_change := c.did_change || decide (0 < n) })

/-- `LRUCache.get_or_load`: the loader is a suspended computation modelled by
its outcome (`some v` = returns `v`, `none` = raises). The third component
counts how many times the loader was invoked. On a miss the code calls the
loader before touching any state, then marks dirty and stores the value
(plain insertion, no `move_to_end`; a fresh key lands at the tail anyway).
On a hit the loader is never called. -/
def LRUCache.get_or_load (c : LRUCache) (k : Nat) (loader : Option Nat) :
    Option Nat × LRUCache × Nat :=
  match odGet c.data k with
  | none =>
    match loader with
    | none => (none, c, 1)
    | some v => (some v, { c with did_change := true, data := odSet c.data k v }, 1)
  | some v => (some v, { c with did_change := true, data := moveToEnd c.data k }, 0)

/-! ### Persistence

The backing file is modelled as its content: `none` = the path does not
exist, `some bs` = a file holding bytes `bs`. -/

/-- `PersistentLRUCache.save`: if the dirty flag is clear, do nothing (no
write). Otherwise trim, then write the pickled store. The outer `Option`
models an escaped exception (from `trim`); the inner `Option (List Nat)` is
the file content written (`none` = no write happened). The source never
resets `_did_change` after writing. -/
def save (c : LRUCache) : Option (Option (List Nat) × LRUCache) :=
  if c.did_change = false then some (none, c)
  else
    match c.trim with
    | none => none
    | some (_, c') => some (some (pickleDump c'.data), c')

/-- `PersistentLRUCache.__init__` + `_load`: a fresh cache against a backing
path. A missing file leaves the store empty (the class default
`_did_change = False` applies); an existing file is unpickled into the empty
store, preserving order, and `_did_change` is reset to `False`. A corrupt
file propagates the unpickling error (`none`). -/
def loadCache (maxI maxB : Nat) (file : Option (List Nat)) : Option LRUCache :=
  match file with
  | none => some ⟨[], maxI, maxB, false⟩
  | some bs =>
    match pickleLoad bs with
    | none => none
    | some d => some ⟨d, maxI, maxB, false⟩

/-! ### Operation sequences (for the recency-order invariant) -/

/-- One client operation on the store. -/
inductive Op where
  | set (k v : Nat)
  | get (k : Nat)
  | del (k : Nat)
deriving DecidableEq, Repr

/-- State transition of one operation (for `del` of an absent key the entry
list is unchanged; only the dirty flag mutates before the `KeyError`). -/
def step (c : LRUCache) : Op → LRUCache
  | .set k v => c.setitem k v
  | .get k => (c.getitem k).2
  | .del k => (c.delitem k).2

/-- Tracking the most recently *touched* key: a write always touches its key;
a read touches only on a hit; a delete is not a touch. -/
def touch (c : LRUCache) (mrt : Option Nat) : Op → Option Nat
  | .set k _ => some k
  | .get k => if (odGet c.data k).isSome then some k else mrt
  | .del _ => mrt

/-- Run a sequence of operations, tracking the most recently touched key. -/
def runT : LRUCache → Option Nat → List Op → LRUCache × Option Nat
  | c, mrt, [] => (c, mrt)
  | c, mrt, op :: rest => runT (step c op) (touch c mrt op) rest

/-! ### Round-trip of the serialization model -/

lemma fromBytes_toBytesFuel (fuel : Nat) : ∀ n, n ≤ fuel →
    fromBytes (toBytesFuel fuel n) = n := by
  induction fuel with
  | zero =>
    intro n hn
    interval_cases n
    simp [toBytesFuel, fromBytes]
  | succ fuel ih =>
    intro n hn
    by_cases h0 : n = 0
    · simp [toBytesFuel, h0, fromBytes]
    · have hdiv : n / 256 ≤ fuel := by
        have : n / 256 < n := Nat.div_lt_self (Nat.pos_of_ne_zero h0) (by norm_num)
        omega
      simp only [toBytesFuel, h0, if_false, fromBytes, ih _ hdiv]
      exact Nat.mod_add_div n 256

lemma fromBytes_toBytes (n : Nat) : fromBytes (toBytes n) = n :=
  fromBytes_toBytesFuel n n le_rfl

lemma decodeNat_natEnc (n : Nat) (tail : List Nat) :
    decodeNat (natEnc n ++ tail) = some (n, tail) := by
  simp only [natEnc, List.cons_append, decodeNat]
  rw [if_pos (by simp), List.take_left, List.drop_left, fromBytes_toBytes]

lemma decodePairs_encoded (d : List (Nat × Nat)) (tail : List Nat) :
    decodePairs d.length (d.flatMap encPair ++ tail) = some (d, tail) := by
  induction d with
  | nil => simp [decodePairs]
  | cons kv rest ih =>
    obtain ⟨k, v⟩ := kv
    simp only [List.length_cons, List.flatMap_cons, decodePairs, encPair,
      List.append_assoc]
    rw [decodeNat_natEnc]
    simp only [Option.bind_eq_bind, Option.some_bind]
    rw [decodeNat_natEnc]
    simp [ih]

lemma pickleLoad_pickleDump (d : List (Nat × Nat)) :
    pickleLoad (pickleDump d) = some d := by
  simp only [pickleDump, pickleLoad]
  rw [decodeNat_natEnc]
  simp only [Option.bind_eq_bind, Option.some_bind]
  rw [decodePairs_encoded]
  simp

/-! ### OrderedDict lemmas -/

@[simp]
lemma keysOf_nil : keysOf [] = [] := rfl

@[simp]
lemma keysOf_cons (kv : Nat × Nat) (d : List (Nat × Nat)) :
    keysOf (kv :: d) = kv.1 :: keysOf d := rfl

@[simp]
lemma keysOf_append (a b : List (Nat × Nat)) :
    keysOf (a ++ b) = keysOf a ++ keysOf b := by
  simp [keysOf]

lemma odGet_odSet_self (d : List (Nat × Nat)) (k v : Nat) :
    odGet (odSet d k v) k = some v := by
  induction d with
  | nil => simp [odSet, odGet]
  | cons kv rest ih =>
    by_cases h : kv.1 = k
    · simp [odSet, odGet, h]
    · simp [odSet, odGet, h, ih]

lemma odSet_of_absent (d : List (Nat × Nat)) (k v : Nat)
    (h : odGet d k = none) : odSet d k v = d ++ [(k, v)] := by
  induction d with
  | nil => simp [odSet]
  | cons kv rest ih =>
    by_cases hk : kv.1 = k
    · simp [odGet, hk] at h
    · simp only [odGet, hk, if_false] at h
      simp [odSet, hk, ih h]

lemma mem_keysOf_odSet (d : List (Nat × Nat)) (k v a : Nat) :
    a ∈ keysOf (odSet d k v) ↔ a ∈ keysOf d ∨ a = k := by
  induction d with
  | nil => simp [odSet, keysOf]
  | cons kv rest ih =>
    obtain ⟨k1, v1⟩ := kv
    by_cases h : k1 = k
    · subst h
      have he : odSet ((k1, v1) :: rest) k1 v = (k1, v) :: rest := by
        simp [odSet]
      rw [he, keysOf_cons, keysOf_cons]
      simp only [List.mem_cons]
      tauto
    · have he : odSet ((k1, v1) :: rest) k v = (k1, v1) :: odSet rest k v := by
        simp [odSet, h]
      rw [he, keysOf_cons, keysOf_cons]
      simp only [List.mem_cons, ih]
      tauto

lemma nodup_keysOf_odSet (d : List (Nat × Nat)) (k v : Nat)
    (h : (keysOf d).Nodup) : (keysOf (odSet d k v)).Nodup := by
  induction d with
  | nil => simp [odSet, keysOf]
  | cons kv rest ih =>
    simp only [keysOf_cons, List.nodup_cons] at h
    by_cases hk : kv.1 = k
    · subst hk
      simpa [odSet, List.nodup_cons] using h
    · simp only [odSet, hk, if_false, keysOf_cons, List.nodup_cons]
      refine ⟨fun hm => ?_, ih h.2⟩
      rcases (mem_keysOf_odSet rest k v kv.1).mp hm with hm' | hm'
      · exact h.1 hm'
      · exact hk hm'

lemma odDel_sublist (d : List (Nat × Nat)) (k : Nat) :
    (odDel d k).Sublist d := by
  induction d with
  | nil => simp [odDel]
  | cons kv rest ih =>
    by_cases h : kv.1 = k
    · simp only [odDel, h, if_pos rfl]
      exact List.sublist_cons_self kv rest
    · simp only [odDel, h, if_false]
      exact ih.cons₂ kv

lemma keysOf_odDel_sublist (d : List (Nat × Nat)) (k : Nat) :
    (keysOf (odDel d k)).Sublist (keysOf d) :=
  (odDel_sublist d k).map Prod.fst

lemma nodup_keysOf_odDel (d : List (Nat × Nat)) (k : Nat)
    (h : (keysOf d).Nodup) : (keysOf (odDel d k)).Nodup :=
  h.sublist (keysOf_odDel_sublist d k)

lemma not_mem_keysOf_odDel_self (d : List (Nat × Nat)) (k : Nat)
    (h : (keysOf d).Nodup) : k ∉ keysOf (odDel d k) := by
  induction d with
  | nil => simp [odDel]
  | cons kv rest ih =>
    simp only [keysOf_cons, List.nodup_cons] at h
    by_cases hk : kv.1 = k
    · subst hk
      simpa [odDel] using h.1
    · simp only [odDel, hk, if_false, keysOf_cons, List.mem_cons, not_or]
      exact ⟨fun he => hk he.symm, ih h.2⟩

lemma odDel_cons_self (kv : Nat × Nat) (rest : List (Nat × Nat)) :
    odDel (kv :: rest) kv.1 = rest := by
  simp [odDel]

lemma moveToEnd_of_get (d : List (Nat × Nat)) (k v : Nat)
    (h : odGet d k = some v) : moveToEnd d k = odDel d k ++ [(k, v)] := by
  simp [moveToEnd, h]

lemma getLast?_keysOf_moveToEnd (d : List (Nat × Nat)) (k v : Nat)
    (h : odGet d k = some v) :
    (keysOf (moveToEnd d k)).getLast? = some k := by
  rw [moveToEnd_of_get d k v h]
  simp [List.getLast?_concat]

lemma nodup_keysOf_moveToEnd (d : List (Nat × Nat)) (k : Nat)
    (h : (keysOf d).Nodup) : (keysOf (moveToEnd d k)).Nodup := by
  unfold moveToEnd
  cases hg : odGet d k with
  | none => exact h
  | some v =>
    simp only [keysOf_append, keysOf_cons, keysOf_nil, List.nodup_append]
    refine ⟨nodup_keysOf_odDel d k h, List.nodup_singleton k, ?_⟩
    intro a ha hb
    simp only [List.mem_singleton] at hb
    subst hb
    exact not_mem_keysOf_odDel_self d a h ha

lemma getLast?_cons_of_ne_nil (a : Nat) {l : List Nat} (h : l ≠ []) :
    (a :: l).getLast? = l.getLast? := by
  cases l with
  | nil => exact absurd rfl h
  | cons b t => exact List.getLast?_cons_cons

lemma getLast?_cons_of_getLast? {a m : Nat} {l : List Nat}
    (h : l.getLast? = some m) : (a :: l).getLast? = some m := by
  cases l with
  | nil => simp at h
  | cons b t => rw [List.getLast?_cons_cons]; exact h

lemma getLast?_keysOf_odDel (d : List (Nat × Nat)) (k m : Nat)
    (hm : (keysOf d).getLast? = some m) (hne : k ≠ m) :
    (keysOf (odDel d k)).getLast? = some m := by
  induction d with
  | nil => simp [keysOf] at hm
  | cons kv rest ih =>
    by_cases hk : kv.1 = k
    · rw [show odDel (kv :: rest) k = rest by simp [odDel, hk]]
      cases rest with
      | nil =>
        simp only [keysOf_cons, keysOf_nil, List.getLast?_singleton,
          Option.some_inj] at hm
        omega
      | cons b t =>
        rw [keysOf_cons, getLast?_cons_of_ne_nil _ (by simp [keysOf])] at hm
        exact hm
    · simp only [odDel, hk, if_false, keysOf_cons]
      cases rest with
      | nil =>
        simpa [odDel] using hm
      | cons b t =>
        rw [keysOf_cons, getLast?_cons_of_ne_nil _ (by simp [keysOf])] at hm
        exact getLast?_cons_of_getLast? (ih hm)

/-! ### Trim lemmas -/

lemma trimLoop_some_lt (maxB : Nat) (snap : List Nat) :
    ∀ d count n d', trimLoop maxB snap d count = some (n, d') →
      (pickleDump d').length < maxB := by
  induction snap with
  | nil =>
    intro d count n d' h
    unfold trimLoop at h
    by_cases hlt : (pickleDump d).length < maxB
    · simp only [if_pos hlt, Option.some.injEq, Prod.mk.injEq] at h
      obtain ⟨rfl, rfl⟩ := h
      exact hlt
    · simp [if_neg hlt] at h
  | cons k rest ih =>
    intro d count n d' h
    unfold trimLoop at h
    by_cases hlt : (pickleDump d).length < maxB
    · simp only [if_pos hlt, Option.some.injEq, Prod.mk.injEq] at h
      obtain ⟨rfl, rfl⟩ := h
      exact hlt
    · simp only [if_neg hlt] at h
      exact ih _ _ _ _ h

lemma trimLoop_drop (maxB : Nat) :
    ∀ (d : List (Nat × Nat)) (count n : Nat) (d' : List (Nat × Nat)),
    trimLoop maxB (keysOf d) d count = some (n, d') →
    ∃ m, n = count + m ∧ d' = d.drop m ∧ m ≤ d.length ∧
      ∀ j, j < m → ¬ ((pickleDump (d.drop j)).length < maxB) := by
  intro d
  induction d with
  | nil =>
    intro count n d' h
    unfold trimLoop at h
    by_cases hlt : (pickleDump ([] : List (Nat × Nat))).length < maxB
    · simp only [if_pos hlt, Option.some.injEq, Prod.mk.injEq] at h
      obtain ⟨rfl, rfl⟩ := h
      exact ⟨0, by omega, rfl, by simp, by omega⟩
    · simp [if_neg hlt, keysOf] at h
  | cons kv rest ih =>
    intro count n d' h
    rw [keysOf_cons] at h
    unfold trimLoop at h
    by_cases hlt : (pickleDump (kv :: rest)).length < maxB
    · simp only [if_pos hlt, Option.some.injEq, Prod.mk.injEq] at h
      obtain ⟨rfl, rfl⟩ := h
      exact ⟨0, by omega, rfl, by simp, by omega⟩
    · simp only [if_neg hlt] at h
      rw [odDel_cons_self] at h
      obtain ⟨m, hm, hd, hle, hmin⟩ := ih (count + 1) n d' h
      refine ⟨m + 1, by omega, by simpa using hd, by simp; omega, ?_⟩
      intro j hj
      cases j with
      | zero => simpa using hlt
      | succ j => simpa using hmin j (by omega)

lemma trim_eq_some (c : LRUCache) (n : Nat) (c' : LRUCache)
    (h : c.trim = some (n, c')) :
    c'.data = c.data.drop n ∧ n ≤ c.data.length ∧
    (pickleDump c'.data).length < c.max_bytesize ∧
    (∀ j, j < n → ¬ ((pickleDump (c.data.drop j)).length < c.max_bytesize)) ∧
    c'.max_bytesize = c.max_bytesize ∧ c'.max_items = c.max_items := by
  unfold LRUCache.trim at h
  cases htl : trimLoop c.max_bytesize (keysOf c.data) c.data 0 with
  | none => rw [htl] at h; simp at h
  | some p =>
    obtain ⟨n0, d0⟩ := p
    rw [htl] at h
    simp only [Option.some.injEq, Prod.mk.injEq] at h
    obtain ⟨rfl, rfl⟩ := h
    obtain ⟨m, hm, hd, hle, hmin⟩ := trimLoop_drop _ _ _ _ _ htl
    have hm0 : m = n0 := by omega
    subst hm0
    refine ⟨by simpa using hd, hle, ?_, fun j hj => hmin j hj, rfl, rfl⟩
    have := trimLoop_some_lt _ _ _ _ _ _ htl
    simpa using this

lemma trim_of_fits (c : LRUCache) (h : c.bytesize < c.max_bytesize) :
    c.trim = some (0, c) := by
  unfold LRUCache.trim trimLoop
  rw [if_pos (by simpa [LRUCache.bytesize] using h)]
  simp

/-! ### The recency invariant -/

/-- The invariant carried along every operation sequence: keys are unique,
and the most recently touched key, when still present, sits at the
most-recently-used (last) position of the iteration order. -/
def Inv (c : LRUCache) (mrt : Option Nat) : Prop :=
  (keysOf c.data).Nodup ∧
  ∀ k, mrt = some k → k ∈ keysOf c.data → (keysOf c.data).getLast? = some k

lemma inv_step (c : LRUCache) (mrt : Option Nat) (op : Op) (h : Inv c mrt) :
    Inv (step c op) (touch c mrt op) := by
  obtain ⟨hnd, hmru⟩ := h
  cases op with
  | set k v =>
    have hdata : (step c (.set k v)).data = moveToEnd (odSet c.data k v) k := rfl
    have htouch : touch c mrt (.set k v) = some k := rfl
    constructor
    · rw [hdata]
      exact nodup_keysOf_moveToEnd _ _ (nodup_keysOf_odSet _ _ _ hnd)
    · intro k0 hk0 _
      rw [htouch, Option.some_inj] at hk0
      subst hk0
      rw [hdata]
      exact getLast?_keysOf_moveToEnd _ _ _ (odGet_odSet_self c.data k v)
  | get k =>
    cases hg : odGet c.data k with
    | none =>
      have hstep : step c (.get k) = c := by
        simp [step, LRUCache.getitem, hg]
      have htouch : touch c mrt (.get k) = mrt := by
        simp [touch, hg]
      rw [hstep, htouch]
      exact ⟨hnd, hmru⟩
    | some v =>
      have hdata : (step c (.get k)).data = moveToEnd c.data k := by
        simp [step, LRUCache.getitem, hg]
      have htouch : touch c mrt (.get k) = some k := by
        simp [touch, hg]
      constructor
      · rw [hdata]
        exact nodup_keysOf_moveToEnd _ _ hnd
      · intro k0 hk0 _
        rw [htouch, Option.some_inj] at hk0
        subst hk0
        rw [hdata]
        exact getLast?_keysOf_moveToEnd _ _ _ hg
  | del k =>
    have htouch : touch c mrt (.del k) = mrt := rfl
    cases hg : odGet c.data k with
    | none =>
      have hdata : (step c (.del k)).data = c.data := by
        simp [step, LRUCache.delitem, hg]
      rw [htouch]
      constructor
      · rw [hdata]; exact hnd
      · intro k0 hk0 hmem
        rw [hdata] at hmem ⊢
        exact hmru k0 hk0 hmem
    | some v =>
      have hdata : (step c (.del k)).data = odDel c.data k := by
        simp [step, LRUCache.delitem, hg]
      rw [htouch]
      constructor
      · rw [hdata]; exact nodup_keysOf_odDel _ _ hnd
      · intro k0 hk0 hmem
        rw [hdata] at hmem ⊢
        have hmem0 : k0 ∈ keysOf c.data :=
          (keysOf_odDel_sublist c.data k).subset hmem
        have hne : k ≠ k0 := by
          intro he
          subst he
          exact not_mem_keysOf_odDel_self c.data k hnd hmem
        exact getLast?_keysOf_odDel _ _ _ (hmru k0 hk0 hmem0) hne

lemma inv_runT (ops : List Op) : ∀ c mrt, Inv c mrt →
    Inv (runT c mrt ops).1 (runT c mrt ops).2 := by
  induction ops with
  | nil => intro c mrt h; exact h
  | cons op rest ih =>
    intro c mrt h
    exact ih (step c op) (touch c mrt op) (inv_step c mrt op h)

/-! ### The claims -/

/-- C1: whenever `trim()` returns, the serialized byte footprint of the
entries, as computed by the size estimator, is at most `max_byte_size` (or
the entries are empty). The loop only exits through its break, which
requires `buf.tell() < self._max_bytesize`, so the left disjunct always
holds on return. -/
theorem trim_bytesize_le (c : LRUCache) (n : Nat) (c' : LRUCache)
    (h : c.trim = some (n, c')) :
    c'.bytesize ≤ c'.max_bytesize ∨ c'.data = [] := by
  obtain ⟨_, _, hlt, _, hmax, _⟩ := trim_eq_some c n c' h
  left
  rw [hmax]
  exact le_of_lt hlt

theorem trim_bytesize_le_witness :
    (⟨[(1, 10)], 100, 100, false⟩ : LRUCache).bytesize ≤ 100 ∨
    (⟨[(1, 10)], 100, 100, false⟩ : LRUCache).data = [] :=
  trim_bytesize_le ⟨[(1, 10)], 100, 100, false⟩ 0
    ⟨[(1, 10)], 100, 100, false⟩ (by decide)

/-- C2, counterexample to the claim as stated: after the operation sequence
`set 0; set 1; delete 1`, the most recently touched (written) key is `1`,
but the store's iteration order ends in `0` — the touched key was deleted
afterwards, so "the most recently touched key is always last" fails. -/
theorem mru_literal_counterexample :
    (runT ⟨[], 0, 0, false⟩ none [Op.set 0 0, Op.set 1 0, Op.del 1]).2 = some 1 ∧
    (keysOf (runT ⟨[], 0, 0, false⟩ none
      [Op.set 0 0, Op.set 1 0, Op.del 1]).1.data).getLast? ≠ some 1 := by
  decide

/-- C2, amended: every read (hit) and every write moves its key to the
most-recently-used (last) position, and over any sequence of
`set`/`get`/`delete` operations the most recently touched (read or written)
key, *when it is still present in the store*, is last in iteration order
(a later `delete` can remove the touched key itself). -/
theorem mru_touched_present_last :
    (∀ (c : LRUCache) (k v : Nat),
       (keysOf (c.setitem k v).data).getLast? = some k) ∧
    (∀ (c : LRUCache) (k v : Nat), odGet c.data k = some v →
       (keysOf (c.getitem k).2.data).getLast? = some k) ∧
    (∀ (mi mb : Nat) (ops : List Op) (k : Nat),
       (runT ⟨[], mi, mb, false⟩ none ops).2 = some k →
       k ∈ keysOf (runT ⟨[], mi, mb, false⟩ none ops).1.data →
       (keysOf (runT ⟨[], mi, mb, false⟩ none ops).1.data).getLast? = some k) := by
  refine ⟨?_, ?_, ?_⟩
  · intro c k v
    exact getLast?_keysOf_moveToEnd _ _ _ (odGet_odSet_self c.data k v)
  · intro c k v hg
    have hdata : (c.getitem k).2.data = moveToEnd c.data k := by
      simp [LRUCache.getitem, hg]
    rw [hdata]
    exact getLast?_keysOf_moveToEnd _ _ _ hg
  · intro mi mb ops k hmrt hmem
    have h0 : Inv ⟨[], mi, mb, false⟩ none := by
      constructor
      · simp [keysOf]
      · intro k h
        cases h
    exact (inv_runT ops _ _ h0).2 k hmrt hmem

theorem mru_touched_present_last_witness :
    (keysOf (runT ⟨[], 5, 50, false⟩ none [Op.set 3 7]).1.data).getLast? =
      some 3 :=
  mru_touched_present_last.2.2 5 50 [Op.set 3 7] 3 (by decide) (by decide)

/-- C3: the dirty flag is indeed false right after a load (both when the
backing file is absent and when it is read), but `save()` never resets
`_did_change` to `False`: the final conjunct evaluates a successful,
dirty-path save and the post-state still carries `did_change = true`,
contradicting the claim that save resets dirty on success. -/
theorem save_does_not_reset_dirty :
    loadCache 10 100 none = some ⟨[], 10, 100, false⟩ ∧
    loadCache 10 100 (some (pickleDump [(1, 2)])) =
      some ⟨[(1, 2)], 10, 100, false⟩ ∧
    save ⟨[(1, 2)], 10, 100, true⟩ =
      some (some (pickleDump [(1, 2)]), ⟨[(1, 2)], 10, 100, true⟩) := by
  decide

/-- C4: `trim()` is *not* error-free in the pathological case. When the
budget is below even the empty store's encoded footprint, the loop evicts
every entry and then executes `sorted_keys.pop(0)` on an empty snapshot,
raising `IndexError` (modelled `none`) instead of stopping with an empty
store. -/
theorem trim_pathological_raises :
    LRUCache.trim ⟨[(1, 0)], 10, 0, false⟩ = none ∧
    LRUCache.trim ⟨[], 10, 0, false⟩ = none := by
  decide

/-- C5: `trim()` evicts nothing when the store already fits; otherwise it
removes keys strictly oldest-first (the post-state is a `drop` of the
original entry list), returns the eviction count, stops as soon as the
footprint is within budget (every shorter eviction prefix was still over
budget), and on the concrete A,B,C,D scenario — four entries that together
exceed the budget while the first three fit — it evicts exactly the oldest
entry A and returns 1, retaining B, C, D. -/
theorem trim_spec :
    (∀ c : LRUCache, c.bytesize < c.max_bytesize → c.trim = some (0, c)) ∧
    (∀ (c : LRUCache) (n : Nat) (c' : LRUCache), c.trim = some (n, c') →
       c'.data = c.data.drop n ∧ n ≤ c.data.length ∧
       c'.bytesize < c.max_bytesize ∧
       ∀ j, j < n → ¬ ((pickleDump (c.data.drop j)).length < c.max_bytesize)) ∧
    (LRUCache.trim ⟨[(1, 10), (2, 20), (3, 30), (4, 40)], 100, 18, false⟩ =
       some (1, ⟨[(2, 20), (3, 30), (4, 40)], 100, 18, true⟩) ∧
     ¬ ((pickleDump [(1, 10), (2, 20), (3, 30), (4, 40)]).length < 18) ∧
     (pickleDump [(1, 10), (2, 20), (3, 30)]).length < 18) := by
  refine ⟨trim_of_fits, ?_, by decide⟩
  intro c n c' h
  obtain ⟨hd, hle, hlt, hmin, _, _⟩ := trim_eq_some c n c' h
  exact ⟨hd, hle, hlt, hmin⟩

theorem trim_spec_witness :
    LRUCache.trim ⟨[(7, 7)], 3, 999, true⟩ =
      some (0, ⟨[(7, 7)], 3, 999, true⟩) :=
  trim_spec.1 ⟨[(7, 7)], 3, 999, true⟩ (by decide)

/-- C6: round-trip law. For any dirty store whose trim succeeds, `save`
writes exactly the pickled bytes of the trimmed entries, and loading those
bytes reconstructs a cache with the same keys, the same values and the same
order as the trimmed store (with a clean dirty flag, as `_load` sets). -/
theorem save_load_roundtrip (c : LRUCache) (n : Nat) (c' : LRUCache)
    (hdirty : c.did_change = true) (htrim : c.trim = some (n, c')) :
    save c = some (some (pickleDump c'.data), c') ∧
    loadCache c'.max_items c'.max_bytesize (some (pickleDump c'.data)) =
      some ⟨c'.data, c'.max_items, c'.max_bytesize, false⟩ := by
  constructor
  · unfold save
    rw [if_neg (by simp [hdirty]), htrim]
  · simp [loadCache, pickleLoad_pickleDump]

theorem save_load_roundtrip_witness :
    save ⟨[(1, 2)], 10, 100, true⟩ =
      some (some (pickleDump [(1, 2)]), ⟨[(1, 2)], 10, 100, true⟩) ∧
    loadCache 10 100 (some (pickleDump [(1, 2)])) =
      some ⟨[(1, 2)], 10, 100, false⟩ :=
  save_load_roundtrip ⟨[(1, 2)], 10, 100, true⟩ 0 ⟨[(1, 2)], 10, 100, true⟩
    rfl (by decide)

/-- C7: `get_or_load` invokes the loader exactly once on an absent key —
storing the loaded value at the most-recent position and marking dirty on
success, and propagating the loader's exception with entries and dirty flag
untouched on failure — and invokes it zero times on a present key,
returning the cached value. -/
theorem get_or_load_spec (c : LRUCache) (k : Nat) (loader : Option Nat) :
    (odGet c.data k = none →
       (c.get_or_load k loader).2.2 = 1 ∧
       (∀ v, loader = some v →
          c.get_or_load k loader =
            (some v, ⟨c.data ++ [(k, v)], c.max_items, c.max_bytesize, true⟩, 1)) ∧
       (loader = none → c.get_or_load k loader = (none, c, 1))) ∧
    (∀ v, odGet c.data k = some v →
       (c.get_or_load k loader).1 = some v ∧
       (c.get_or_load k loader).2.2 = 0) := by
  constructor
  · intro hg
    refine ⟨?_, ?_, ?_⟩
    · unfold LRUCache.get_or_load
      rw [hg]
      cases loader <;> rfl
    · intro v hv
      subst hv
      simp [LRUCache.get_or_load, hg, odSet_of_absent c.data k v hg]
    · intro hv
      subst hv
      unfold LRUCache.get_or_load
      rw [hg]
  · intro v hg
    unfold LRUCache.get_or_load
    rw [hg]
    exact ⟨rfl, rfl⟩

theorem get_or_load_spec_witness :
    (⟨[(5, 6)], 10, 100, false⟩ : LRUCache).get_or_load 9 (some 42) =
      (some 42, ⟨[(5, 6)] ++ [(9, 42)], 10, 100, true⟩, 1) :=
  ((get_or_load_spec ⟨[(5, 6)], 10, 100, false⟩ 9 (some 42)).1
    (by decide)).2.1 42 rfl

/-- C8: the size estimator is deterministic (same entry content gives the
same byte count) and agrees exactly with the save path: whenever `save`
writes a file, the written byte count equals `bytesize` of the saved state.
Both sides serialize through the one `pickleDump` encoding, as both Python
call sites use the same pickler and protocol. -/
theorem bytesize_eq_saved_length :
    (∀ (c : LRUCache) (bs : List Nat) (c' : LRUCache),
       save c = some (some bs, c') → bs.length = c'.bytesize) ∧
    (∀ c₁ c₂ : LRUCache, c₁.data = c₂.data → c₁.bytesize = c₂.bytesize) := by
  constructor
  · intro c bs c' h
    unfold save at h
    by_cases hd : c.did_change = false
    · rw [if_pos hd] at h
      simp at h
    · rw [if_neg hd] at h
      cases htr : c.trim with
      | none => rw [htr] at h; simp at h
      | some p =>
        obtain ⟨n, c''⟩ := p
        rw [htr] at h
        simp only [Option.some.injEq, Prod.mk.injEq] at h
        obtain ⟨h1, rfl⟩ := h
        rw [← h1]
        rfl
  · intro c₁ c₂ h
    unfold LRUCache.bytesize
    rw [h]

theorem bytesize_eq_saved_length_witness :
    (pickleDump [(1, 2)]).length = (⟨[(1, 2)], 10, 100, true⟩ : LRUCache).bytesize :=
  bytesize_eq_saved_length.1 ⟨[(1, 2)], 10, 100, true⟩ (pickleDump [(1, 2)])
    ⟨[(1, 2)], 10, 100, true⟩ (by decide)

/-- C9, counterexample to the claim as stated: deleting an absent key from a
clean cache reports failure (`KeyError`) and removes no entry, but it does
*not* leave the cache state unmodified — `__delitem__` sets
`_did_change = True` before the failing `del`, so the dirty flag flips. -/
theorem delitem_absent_modifies_state :
    (LRUCache.delitem ⟨[], 10, 10, false⟩ 0).1 = false ∧
    (LRUCache.delitem ⟨[], 10, 10, false⟩ 0).2 ≠ ⟨[], 10, 10, false⟩ := by
  decide

/-- C9, amended: deleting an absent key fails with a "key not found" error
and leaves the entries unchanged, but it does set the dirty flag (which the
code flips before attempting the removal); deleting a present key removes
exactly that entry and marks the cache dirty. -/
theorem delitem_spec (c : LRUCache) (k : Nat) :
    (odGet c.data k = none →
       c.delitem k = (false, ⟨c.data, c.max_items, c.max_bytesize, true⟩)) ∧
    (∀ v, odGet c.data k = some v →
       c.delitem k = (true, ⟨odDel c.data k, c.max_items, c.max_bytesize, true⟩)) := by
  constructor
  · intro hg
    simp [LRUCache.delitem, hg]
  · intro v hg
    simp [LRUCache.delitem, hg]

theorem delitem_spec_witness :
    (⟨[(3, 4)], 10, 10, false⟩ : LRUCache).delitem 3 =
      (true, ⟨odDel [(3, 4)] 3, 10, 10, true⟩) :=
  (delitem_spec ⟨[(3, 4)], 10, 10, false⟩ 3).2 4 (by decide)

/-- C10: a lookup of an absent key, whether through subscript access
(`__getitem__`, which yields `None`) or through `get` (which yields the
caller's default), is side-effect-free: the returned cache state is exactly
the input state — entries, recency order and dirty flag untouched. -/
theorem miss_is_side_effect_free (c : LRUCache) (k : Nat) (d : Option Nat)
    (h : odGet c.data k = none) :
    c.getitem k = (none, c) ∧ c.get k d = (d, c) := by
  constructor
  · simp [LRUCache.getitem, h]
  · simp [LRUCache.get, h]

theorem miss_is_side_effect_free_witness :
    (⟨[(1, 1)], 10, 10, false⟩ : LRUCache).getitem 2 =
      (none, ⟨[(1, 1)], 10, 10, false⟩) ∧
    (⟨[(1, 1)], 10, 10, false⟩ : LRUCache).get 2 (some 77) =
      (some 77, ⟨[(1, 1)], 10, 10, false⟩) :=
  miss_is_side_effect_free ⟨[(1, 1)], 10, 10, false⟩ 2 (some 77) (by decide)

end LRU
